import Mathlib

/-!
Verification development for the balance-completion core of the beancount
ledger processor (`beancount/core/complete.py`, exercised by
`beancount/core/complete_test.py`) and for the display-context module
(`beancount/core/display_context.py`).

Exact decimal numbers are embedded as rationals (`ℚ`): decimal arithmetic
(addition, multiplication, negation, comparison with zero) embeds faithfully
into `ℚ` and no rounding occurs anywhere in this core.
-/

/-- Source file location attached to diagnostics (`data.FileLocation`):
a filename and a line number. -/
structure FileLocation where
  filename : String
  lineno : Nat
deriving DecidableEq, Repr

/-- An exact decimal number paired with a currency code (`amount.Amount`). -/
structure Amount where
  number : ℚ
  currency : String
deriving DecidableEq, Repr

/-- A per-unit acquisition cost attached to a posting: a decimal number and a
currency.  The acquisition date and label carried by the source type are
opaque to this core and are not represented. -/
structure Cost where
  number : ℚ
  currency : String
deriving DecidableEq, Repr

/-- One account-leg entry of a transaction.  `number`/`currency` both present
means the posting is explicit; either one missing means it is incomplete and
is to be inferred.  A posting may additionally carry a cost and a price. -/
structure Posting where
  account : String
  number : Option ℚ
  currency : Option String
  cost : Option Cost
  price : Option Amount
deriving DecidableEq, Repr

/-- A transaction: a source location, opaque header fields (date, flag,
payee, narration, tags, links — all irrelevant to balance completion and kept
opaque), and the ordered sequence of postings it owns. -/
structure Transaction where
  fileloc : FileLocation
  date : Option String
  flag : Option String
  payee : Option String
  narration : Option String
  tags : Option String
  links : Option String
  postings : List Posting
deriving DecidableEq, Repr

/-- The kind of a balance diagnostic, per the spec's error taxonomy.  An
`Imbalance` error carries the offending residual amounts for diagnostic
context. -/
inductive ErrorKind where
  | Imbalance (residual : List (String × ℚ))
  | TooManyIncomplete
  | AmbiguousCurrency
  | SuperfluousIncomplete
deriving DecidableEq, Repr

/-- A balance diagnostic: the source location of the offending transaction and
the kind of failure.  Errors are inert data; the source error also keeps a
reference to the transaction itself, which adds nothing to the properties
verified here. -/
structure BalanceError where
  fileloc : FileLocation
  kind : ErrorKind
deriving DecidableEq, Repr

/-- A posting is explicit when its quantity and currency are both set. -/
def isExplicit (p : Posting) : Bool :=
  p.number.isSome && p.currency.isSome

/-- The explicit postings of a list, in order. -/
def explicitOf (ps : List Posting) : List Posting :=
  ps.filter (fun p => isExplicit p)

/-- The incomplete postings of a list, in order. -/
def incompleteOf (ps : List Posting) : List Posting :=
  ps.filter (fun p => !isExplicit p)

/-- Modelled from the spec (`complete.py` is absent from the sources; only its
tests are present): `get_balance_amount(posting)`.  If the posting carries a
cost, the balance amount is `quantity * cost.number` in `cost.currency` and
any price is ignored; else if it carries a price, `quantity * price.number`
in `price.currency`; else the posting's own quantity and currency.  Calling
it on an incomplete posting is a programming error in the source; here it
yields `none`. -/
def get_balance_amount (p : Posting) : Option Amount :=
  match p.number, p.currency with
  | some number, some currency =>
    match p.cost with
    | some cost => some ⟨number * cost.number, cost.currency⟩
    | none =>
      match p.price with
      | some price => some ⟨number * price.number, price.currency⟩
      | none => some ⟨number, currency⟩
  | _, _ => none

/-- Modelled from the spec: `has_nontrivial_balance(posting)` is true iff the
posting carries a cost or a price. -/
def has_nontrivial_balance (p : Posting) : Bool :=
  p.cost.isSome || p.price.isSome

/-- The residual ledger (`Inventory`): a mapping from currency to signed
decimal balance, as an association list whose iteration order is the
insertion order of first-seen currencies. -/
abbrev Inventory := List (String × ℚ)

/-- Look a currency up in an inventory; an absent currency reads as zero. -/
def invLookup : Inventory → String → ℚ
  | [], _ => 0
  | (c, n) :: rest, cur => if c = cur then n else invLookup rest cur

/-- Add a number to the entry of a currency in an inventory, creating the
entry at the end when the currency is new (first-seen insertion order). -/
def addToInventory : Inventory → String → ℚ → Inventory
  | [], cur, num => [(cur, num)]
  | (c, n) :: rest, cur, num =>
    if c = cur then (c, n + num) :: rest
    else (c, n) :: addToInventory rest cur num

/-- Accumulate one posting's balance amount into an inventory.  A posting on
which `get_balance_amount` is undefined contributes nothing (the source never
reaches this case: `compute_residual` is only called on explicit postings). -/
def addPosting (inv : Inventory) (p : Posting) : Inventory :=
  match get_balance_amount p with
  | some a => addToInventory inv a.currency a.number
  | none => inv

/-- Modelled from the spec: the accumulation pass of `compute_residual`, the
per-currency exact sum of balance amounts over a list of postings. -/
def accumulateResidual (postings : List Posting) : Inventory :=
  postings.foldl addPosting []

/-- Modelled from the spec: `compute_residual(postings)` accumulates each
posting's balance amount per currency with exact decimal addition, then
removes every currency whose total is exactly zero. -/
def compute_residual (postings : List Posting) : Inventory :=
  (accumulateResidual postings).filter (fun e => decide (e.2 ≠ 0))

/-- The mathematical per-currency sum of the balance amounts of a list of
postings, used to state the conservation law and the zero-sum property. -/
def sumBalances (postings : List Posting) (cur : String) : ℚ :=
  match postings with
  | [] => 0
  | p :: rest =>
    (match get_balance_amount p with
     | some a => if a.currency = cur then a.number else 0
     | none => 0) + sumBalances rest cur

/-- Fill an incomplete candidate posting with a definite quantity and
currency.  The filled posting carries no cost and no price: the source builds
a fresh posting from the negated residual position, so the fill exactly
contributes `(num, cur)` to the balance. -/
def fillPosting (p : Posting) (num : ℚ) (cur : String) : Posting :=
  { account := p.account, number := some num, currency := some cur,
    cost := none, price := none }

/-- The currency of the first explicit posting of a list (the currency
inference used to zero-fill a superfluous incomplete posting; the spec fixes
this policy as "first currency encountered in posting order"). -/
def firstCurrency : List Posting → String
  | [] => ""
  | p :: rest =>
    match p.currency with
    | some c => c
    | none => firstCurrency rest

/-- Modelled from the spec: resolution of the first incomplete candidate
against the residual of the explicit postings.
With exactly one nonzero residual currency the candidate is filled with the
negated residual.  With an empty residual: at least two explicit postings
zero-fill the candidate in an inferred currency and flag it as superfluous;
no explicit posting at all drops the candidate and flags it (the tests pin
one error here, `complete_test.py` lines 113–120, where the spec prose says
none); exactly one explicit posting silently drops the candidate
(`complete_test.py` lines 176–185).  A residual spanning several currencies
drops the candidate with an ambiguity error. -/
def resolveFirst (fileloc : FileLocation) (explicit : List Posting)
    (cand : Posting) (residual : Inventory) (tooMany : List BalanceError) :
    List Posting × Bool × List BalanceError :=
  match residual with
  | [] =>
    if 2 ≤ explicit.length then
      (explicit ++ [fillPosting cand 0 (firstCurrency explicit)], true,
        tooMany ++ [⟨fileloc, ErrorKind.SuperfluousIncomplete⟩])
    else if explicit = [] then
      (explicit, false, tooMany ++ [⟨fileloc, ErrorKind.SuperfluousIncomplete⟩])
    else
      (explicit, false, tooMany)
  | [(cur, num)] =>
    (explicit ++ [fillPosting cand (-num) cur], true, tooMany)
  | _ =>
    (explicit, false, tooMany ++ [⟨fileloc, ErrorKind.AmbiguousCurrency⟩])

/-- Modelled from the spec: `get_incomplete_postings(transaction)` partitions
the postings into explicit and incomplete, computes the residual of the
explicit ones, and resolves the first incomplete candidate; more than one
incomplete posting is always an error and every incomplete posting after the
first is dropped.  With no incomplete posting, the postings are returned
unchanged and a nonzero residual yields exactly one error carrying the whole
residual. -/
def get_incomplete_postings (txn : Transaction) :
    List Posting × Bool × List BalanceError :=
  match incompleteOf txn.postings with
  | [] =>
    (explicitOf txn.postings, false,
      if compute_residual (explicitOf txn.postings) = [] then []
      else [⟨txn.fileloc,
        ErrorKind.Imbalance (compute_residual (explicitOf txn.postings))⟩])
  | cand :: rest =>
    resolveFirst txn.fileloc (explicitOf txn.postings) cand
      (compute_residual (explicitOf txn.postings))
      (if rest = [] then [] else [⟨txn.fileloc, ErrorKind.TooManyIncomplete⟩])

/-- Modelled from the spec: `balance_incomplete_postings(transaction)` invokes
`get_incomplete_postings` and replaces the transaction's posting sequence
with the result when a posting was inserted or dropped; otherwise the
transaction is returned unmodified.  The error list is surfaced unchanged. -/
def balance_incomplete_postings (txn : Transaction) :
    Transaction × List BalanceError :=
  let r := get_incomplete_postings txn
  if r.2.1 || decide (r.1.length < txn.postings.length) then
    ({ txn with postings := r.1 }, r.2.2)
  else
    (txn, r.2.2)

/-- Mirrors the test helper `data.create_simple_posting`: a plain posting
with no cost and no price. -/
def simplePosting (account : String) (num : ℚ) (cur : String) : Posting :=
  ⟨account, some num, some cur, none, none⟩

/-- Mirrors the test helper usage `create_simple_posting(None, account, None,
None)`: the canonical auto-posting placeholder. -/
def autoPosting (account : String) : Posting :=
  ⟨account, none, none, none, none⟩

/-- A transaction with opaque header fields, as built in `complete_test.py`. -/
def mkTxn (ps : List Posting) : Transaction :=
  ⟨⟨"complete_test.py", 0⟩, none, none, none, none, none, none, ps⟩

/-- The precision selector of `display_context.py` (`Precision`). -/
inductive Precision where
  | MOST_COMMON
  | MAXIMUM
deriving DecidableEq, Repr

/-- The alignment selector of `display_context.py` (`Align`). -/
inductive Align where
  | NATURAL
  | DOT
  | RIGHT
deriving DecidableEq, Repr

/-- The tuple view of an exact decimal as produced by `Decimal.as_tuple()`:
a sign, the digit sequence, and the exponent. -/
structure DecimalTuple where
  sign : Bool
  digits : List Nat
  exponent : Int
deriving DecidableEq, Repr

/-- Modelled from the spec: `misc_utils.Distribution` (absent from the
sources), a frequency distribution of integers supporting `update`, `empty`,
`mode` and `max` as used by `_CurrencyContext`.  The multiset of observed
values is kept as a list. -/
structure Distribution where
  values : List Int
deriving DecidableEq, Repr

/-- A fresh, empty distribution. -/
def Distribution.init : Distribution := ⟨[]⟩

/-- Record one observed value. -/
def Distribution.update (d : Distribution) (n : Int) : Distribution :=
  ⟨n :: d.values⟩

/-- Whether no value has been observed yet. -/
def Distribution.empty (d : Distribution) : Bool :=
  d.values.isEmpty

/-- The most frequently observed value (only queried when nonempty; the
tie-break among equally frequent values is not observable in the source). -/
def Distribution.mode (d : Distribution) : Int :=
  match d.values with
  | [] => 0
  | x :: xs =>
    xs.foldl (fun best y =>
      if d.values.count best < d.values.count y then y else best) x

/-- The largest observed value (only queried when nonempty). -/
def Distribution.maxSeen (d : Distribution) : Int :=
  match d.values with
  | [] => 0
  | x :: xs => xs.foldl max x

/-- The per-currency accumulator `_CurrencyContext`: whether a sign was seen,
the maximum number of integer digits, and the distribution of fractional
digit counts. -/
structure CurrencyContext where
  has_sign : Bool
  integer_max : Int
  fractional_dist : Distribution
deriving DecidableEq, Repr

/-- `_CurrencyContext.__init__`: no sign, one integer digit, an empty
fractional distribution. -/
def CurrencyContext.init : CurrencyContext :=
  ⟨false, 1, Distribution.init⟩

/-- `_CurrencyContext.update`: record the sign, the fractional digit count
(the negated exponent) and the integer digit count of one number. -/
def CurrencyContext.update (cc : CurrencyContext) (number : DecimalTuple) :
    CurrencyContext :=
  { has_sign := cc.has_sign || number.sign,
    integer_max := max cc.integer_max ((number.digits.length : Int) + number.exponent),
    fractional_dist := cc.fractional_dist.update (-number.exponent) }

/-- `_CurrencyContext.get_fractional`: the number of fractional digits under a
precision selector, or `none` when no number has been seen. -/
def CurrencyContext.get_fractional (cc : CurrencyContext)
    (precision : Precision) : Option Int :=
  if cc.fractional_dist.empty then none
  else
    match precision with
    | Precision.MOST_COMMON => some cc.fractional_dist.mode
    | Precision.MAXIMUM => some cc.fractional_dist.maxSeen

/-- The builder `DisplayContext`: a map from currency to its accumulated
context, as an association list (the source uses a `defaultdict`). -/
structure DisplayContext where
  ccontexts : List (String × CurrencyContext)
deriving DecidableEq, Repr

/-- First-occurrence association-list lookup (dict indexing). -/
def alookup {α : Type} : List (String × α) → String → Option α
  | [], _ => none
  | (k, v) :: rest, key => if k = key then some v else alookup rest key

/-- `defaultdict` update: update the entry of a key in place, creating a
fresh `_CurrencyContext` first when the key is absent. -/
def updateAssoc (l : List (String × CurrencyContext)) (cur : String)
    (number : DecimalTuple) : List (String × CurrencyContext) :=
  match l with
  | [] => [(cur, CurrencyContext.init.update number)]
  | (c, cc) :: rest =>
    if c = cur then (c, cc.update number) :: rest
    else (c, cc) :: updateAssoc rest cur number

/-- `DisplayContext.__init__`: the context map is pre-seeded with a
`__default__` currency context. -/
def DisplayContext.init : DisplayContext :=
  ⟨[("__default__", CurrencyContext.init)]⟩

/-- `DisplayContext.update`: feed one number for one currency into the
builder. -/
def DisplayContext.update (dc : DisplayContext) (number : DecimalTuple)
    (currency : String) : DisplayContext :=
  ⟨updateAssoc dc.ccontexts currency number⟩

/-- A sequence of `update` calls applied in order. -/
def DisplayContext.applyUpdates (dc : DisplayContext)
    (us : List (DecimalTuple × String)) : DisplayContext :=
  us.foldl (fun d u => d.update u.1 u.2) dc

/-- The format string produced by `_build_natural` for one currency:
"\x7b:<comma>\x7d" without a fractional precision, else
"\x7b:<comma>.<frac>f\x7d". -/
def mkNaturalFmt (commaStr : String) (frac : Option Int) : String :=
  match frac with
  | none => "\x7b:" ++ commaStr ++ "\x7d"
  | some f => "\x7b:" ++ commaStr ++ "." ++ toString f ++ "f\x7d"

/-- `DisplayContext._build_natural`: one format string per currency seen. -/
def DisplayContext.build_natural (dc : DisplayContext) (precision : Precision)
    (commas : Bool) : List (String × String) :=
  dc.ccontexts.map (fun pc =>
    (pc.1, mkNaturalFmt (if commas then "," else "")
      (pc.2.get_fractional precision)))

/-- The width upper bound `_build_right` computes for one currency context. -/
def rightMaxDigits (commas : Bool) (precision : Precision)
    (cc : CurrencyContext) : Int :=
  (if cc.has_sign then 1 else 0) + cc.integer_max +
    (if commas then cc.integer_max / 3 else 0) +
    (match cc.get_fractional precision with
     | none => 0
     | some f => (if f ≠ 0 then 1 else 0) + f)

/-- The format string produced by `_build_right` for one currency. -/
def mkRightFmt (width : Int) (commaStr : String) (frac : Option Int) : String :=
  match frac with
  | none => "\x7b:" ++ toString width ++ commaStr ++ "\x7d"
  | some f => "\x7b:" ++ toString width ++ commaStr ++ "." ++ toString f ++ "f\x7d"

/-- `DisplayContext._build_right`: the common width is the maximum of the
per-currency width bounds (the context map is never empty, so the maximum of
the nonempty list in the source never raises). -/
def DisplayContext.build_right (dc : DisplayContext) (precision : Precision)
    (commas : Bool) : List (String × String) :=
  let maxWidth :=
    (dc.ccontexts.map (fun pc => rightMaxDigits commas precision pc.2)).foldl max 0
  dc.ccontexts.map (fun pc =>
    (pc.1, mkRightFmt maxWidth (if commas then "," else "")
      (pc.2.get_fractional precision)))

/-- `DisplayContext.DEFAULT_UNINITIALIZED_PRECISION`. -/
def DEFAULT_UNINITIALIZED_PRECISION : Int := 8

/-- The format string produced by `_build_dot` for one currency: the width is
shrunk by the trailing padding and the padding is appended as spaces. -/
def mkDotFmt (signStr : String) (width : Int) (commaStr : String)
    (frac : Int) (padding : Nat) : String :=
  "\x7b:" ++ signStr ++ toString width ++ commaStr ++ "." ++ toString frac ++
    "f\x7d" ++ String.mk (List.replicate padding ' ')

/-- `DisplayContext._build_dot`: aggregate the maximal sign width, integer
width, period width and fractional width over all currency contexts (a
fractional width of `-1`, meaning none seen anywhere, falls back to
`DEFAULT_UNINITIALIZED_PRECISION`), then pad each currency to the common
width. -/
def DisplayContext.build_dot (dc : DisplayContext) (precision : Precision)
    (commas : Bool) : List (String × String) :=
  let maxSign : Int := if dc.ccontexts.any (fun pc => pc.2.has_sign) then 1 else 0
  let maxInteger : Int :=
    (dc.ccontexts.map (fun pc =>
      pc.2.integer_max + (if commas then pc.2.integer_max / 3 else 0))).foldl max 0
  let maxPeriod : Int :=
    if dc.ccontexts.any (fun pc =>
      match pc.2.get_fractional precision with
      | some f => 0 < f
      | none => false) then 1 else 0
  let maxFractional0 : Int :=
    (dc.ccontexts.map (fun pc =>
      match pc.2.get_fractional precision with
      | some f => f
      | none => -1)).foldl max (-1)
  let maxFractional : Int :=
    if maxFractional0 = -1 then DEFAULT_UNINITIALIZED_PRECISION
    else maxFractional0
  let maxWidth := maxSign + maxInteger + maxPeriod + maxFractional
  let signStr := if maxSign = 1 then " " else ""
  let commaStr := if commas then "," else ""
  dc.ccontexts.map (fun pc =>
    let frac :=
      match pc.2.get_fractional precision with
      | some f => f
      | none => maxFractional
    let lenPadding : Int :=
      (maxFractional - frac) +
        (if 0 < maxFractional && frac = 0 then 1 else 0)
    (pc.1, mkDotFmt signStr (maxWidth - lenPadding) commaStr frac
      lenPadding.toNat))

/-- The rendering object `DisplayFormatter`: it keeps the builder it came
from and one pre-baked format string per currency.  The source additionally
caches the bound `str.format` methods of those strings (`fmtfuncs`); applying
such a method is Python-library behaviour outside this embedding, so a
successful call is represented by the chosen format string paired with the
number it is applied to. -/
structure DisplayFormatter where
  dcontext : DisplayContext
  fmtstrings : List (String × String)
deriving DecidableEq, Repr

/-- `DisplayContext.build`: reserved digits are unsupported (the source
raises `NotImplementedError`, embedded as `none`); otherwise the format
strings are built according to the requested alignment. -/
def DisplayContext.build (dc : DisplayContext) (alignment : Align)
    (precision : Precision) (commas : Bool) (reserved : Nat) :
    Option DisplayFormatter :=
  if reserved ≠ 0 then none
  else
    some ⟨dc,
      match alignment with
      | Align.NATURAL => dc.build_natural precision commas
      | Align.RIGHT => dc.build_right precision commas
      | Align.DOT => dc.build_dot precision commas⟩

/-- `DisplayFormatter.format`: look the currency's format function up,
falling back to the `__default__` entry on a missed lookup (`KeyError`); a
`none` result models an uncaught `KeyError` escaping the call. -/
def DisplayFormatter.format (f : DisplayFormatter) (number : ℚ)
    (currency : String) : Option (String × ℚ) :=
  match alookup f.fmtstrings currency with
  | some fmtstr => some (fmtstr, number)
  | none =>
    match alookup f.fmtstrings "__default__" with
    | some fmtstr => some (fmtstr, number)
    | none => none

/-! ## Inventory lemmas -/

/-- The keys of an inventory, in order. -/
def invKeys (inv : Inventory) : List String := inv.map Prod.fst

theorem invLookup_addToInventory (inv : Inventory) (cur : String) (num : ℚ)
    (k : String) :
    invLookup (addToInventory inv cur num) k =
      invLookup inv k + (if cur = k then num else 0) := by
  induction inv with
  | nil =>
    by_cases h : cur = k <;> simp [addToInventory, invLookup, h]
  | cons e rest ih =>
    obtain ⟨c, n⟩ := e
    by_cases hc : c = cur
    · subst hc
      by_cases hk : c = k <;> simp [addToInventory, invLookup, hk] <;> ring
    · by_cases hk : c = k
      · subst hk
        have : ¬ (cur = c) := fun h => hc h.symm
        simp [addToInventory, invLookup, hc, this]
      · simp [addToInventory, invLookup, hc, hk, ih]

theorem mem_invKeys_addToInventory (inv : Inventory) (cur : String) (num : ℚ)
    (k : String) :
    k ∈ invKeys (addToInventory inv cur num) ↔ k ∈ invKeys inv ∨ k = cur := by
  induction inv with
  | nil => simp [addToInventory, invKeys]
  | cons e rest ih =>
    obtain ⟨c, n⟩ := e
    by_cases hc : c = cur
    · subst hc
      simp [addToInventory, invKeys]
      tauto
    · simp only [addToInventory, invKeys, if_neg hc, List.map_cons, List.mem_cons]
      rw [show invKeys (addToInventory rest cur num) =
        (addToInventory rest cur num).map Prod.fst from rfl] at ih
      rw [show invKeys rest = rest.map Prod.fst from rfl] at ih
      tauto

theorem nodup_invKeys_addToInventory (inv : Inventory) (cur : String) (num : ℚ)
    (h : (invKeys inv).Nodup) :
    (invKeys (addToInventory inv cur num)).Nodup := by
  induction inv with
  | nil => simp [addToInventory, invKeys]
  | cons e rest ih =>
    obtain ⟨c, n⟩ := e
    simp only [invKeys, List.map_cons, List.nodup_cons] at h
    by_cases hc : c = cur
    · subst hc
      simpa [addToInventory, invKeys, List.nodup_cons] using h
    · have h1 := h.1
      have h2 := ih h.2
      simp only [addToInventory, if_neg hc, invKeys, List.map_cons,
        List.nodup_cons]
      refine ⟨?_, h2⟩
      intro hmem
      rcases (mem_invKeys_addToInventory rest cur num c).mp hmem with hm | hm
      · exact h1 hm
      · exact hc hm

theorem invLookup_eq_zero_of_not_mem (inv : Inventory) (k : String)
    (h : k ∉ invKeys inv) : invLookup inv k = 0 := by
  induction inv with
  | nil => rfl
  | cons e rest ih =>
    obtain ⟨c, n⟩ := e
    simp only [invKeys, List.map_cons, List.mem_cons] at h
    push_neg at h
    have : c ≠ k := fun hck => h.1 hck.symm
    simpa [invLookup, this] using ih (by simpa [invKeys] using h.2)

theorem invKeys_filter_subset (inv : Inventory) (k : String)
    (h : k ∈ invKeys (inv.filter (fun e => decide (e.2 ≠ 0)))) :
    k ∈ invKeys inv := by
  simp only [invKeys, List.mem_map] at h ⊢
  obtain ⟨e, he, hk⟩ := h
  exact ⟨e, (List.mem_filter.mp he).1, hk⟩

theorem invLookup_filter (inv : Inventory)
    (h : (invKeys inv).Nodup) (k : String) :
    invLookup (inv.filter (fun e => decide (e.2 ≠ 0))) k = invLookup inv k := by
  induction inv with
  | nil => rfl
  | cons e rest ih =>
    obtain ⟨c, n⟩ := e
    simp only [invKeys, List.map_cons, List.nodup_cons] at h
    have ih2 := ih h.2
    rw [List.filter_cons]
    by_cases hn : n = 0
    · subst hn
      rw [if_neg (by simp)]
      by_cases hk : c = k
      · subst hk
        have hnot : c ∉ invKeys rest := by simpa [invKeys] using h.1
        have hz : invLookup (rest.filter (fun e => decide (e.2 ≠ 0))) c = 0 := by
          apply invLookup_eq_zero_of_not_mem
          intro hmem
          exact hnot (invKeys_filter_subset rest c hmem)
        rw [hz]
        simp [invLookup]
      · rw [show invLookup ((c, (0 : ℚ)) :: rest) k = invLookup rest k by
          simp [invLookup, hk]]
        exact ih2
    · rw [if_pos (by simp [hn])]
      by_cases hk : c = k
      · simp [invLookup, hk]
      · simp only [invLookup, if_neg hk]
        exact ih2

theorem invLookup_foldl (ps : List Posting) (inv : Inventory) (k : String) :
    invLookup (ps.foldl addPosting inv) k = invLookup inv k + sumBalances ps k := by
  induction ps generalizing inv with
  | nil => simp [sumBalances]
  | cons p rest ih =>
    rw [List.foldl_cons, ih]
    cases hba : get_balance_amount p with
    | none => simp [addPosting, hba, sumBalances]
    | some a =>
      simp only [addPosting, hba, sumBalances, invLookup_addToInventory]
      by_cases hc : a.currency = k <;> simp [hc] <;> ring

theorem nodup_invKeys_foldl (ps : List Posting) (inv : Inventory)
    (h : (invKeys inv).Nodup) :
    (invKeys (ps.foldl addPosting inv)).Nodup := by
  induction ps generalizing inv with
  | nil => exact h
  | cons p rest ih =>
    rw [List.foldl_cons]
    apply ih
    cases hba : get_balance_amount p with
    | none => simpa [addPosting, hba] using h
    | some a =>
      simp only [addPosting, hba]
      exact nodup_invKeys_addToInventory inv a.currency a.number h

/-- Conservation at the level of lookups: the residual entry of every
currency equals the exact sum of the balance amounts in that currency. -/
theorem invLookup_compute_residual (ps : List Posting) (k : String) :
    invLookup (compute_residual ps) k = sumBalances ps k := by
  unfold compute_residual accumulateResidual
  rw [invLookup_filter _ (nodup_invKeys_foldl ps [] (by simp [invKeys]))]
  simpa [invLookup] using invLookup_foldl ps [] k

theorem sumBalances_append (xs ys : List Posting) (cur : String) :
    sumBalances (xs ++ ys) cur = sumBalances xs cur + sumBalances ys cur := by
  induction xs with
  | nil => simp [sumBalances]
  | cons p rest ih => simp [sumBalances, ih]; ring

/-! ## Partition lemmas -/

theorem explicitOf_eq_self_of_incomplete_nil (ps : List Posting)
    (h : incompleteOf ps = []) : explicitOf ps = ps := by
  unfold incompleteOf at h
  unfold explicitOf
  rw [List.filter_eq_self]
  intro p hp
  have := List.filter_eq_nil.mp h p hp
  simpa using this

theorem incompleteOf_eq_nil_of_all (ps : List Posting)
    (h : ∀ p ∈ ps, isExplicit p = true) : incompleteOf ps = [] := by
  unfold incompleteOf
  rw [List.filter_eq_nil]
  intro p hp
  simp [h p hp]

theorem isExplicit_of_mem_explicitOf (ps : List Posting) (p : Posting)
    (h : p ∈ explicitOf ps) : isExplicit p = true :=
  (List.mem_filter.mp h).2

theorem firstCurrency_mem (l : List Posting) (hne : l ≠ [])
    (hall : ∀ p ∈ l, isExplicit p = true) :
    ∃ q ∈ l, q.currency = some (firstCurrency l) := by
  cases l with
  | nil => exact absurd rfl hne
  | cons q rest =>
    have hq := hall q (List.mem_cons_self q rest)
    have hcur : q.currency.isSome = true := by
      simp only [isExplicit, Bool.and_eq_true] at hq
      exact hq.2
    obtain ⟨c, hc⟩ := Option.isSome_iff_exists.mp hcur
    refine ⟨q, List.mem_cons_self q rest, ?_⟩
    simp [firstCurrency, hc]

/-! ## Claim theorems -/

/-- C6: `compute_residual` never returns a currency entry with value exactly
zero, and for every currency the sum of the balance amounts of the input
postings in that currency minus the returned residual entry for that currency
(absent entries reading as zero) is zero. -/
theorem compute_residual_conservation (ps : List Posting)
    (h : ∀ p ∈ ps, isExplicit p = true) :
    (∀ e ∈ compute_residual ps, e.2 ≠ 0) ∧
    (∀ cur, sumBalances ps cur - invLookup (compute_residual ps) cur = 0) := by
  refine ⟨?_, ?_⟩
  · intro e he
    exact of_decide_eq_true (List.mem_filter.mp he).2
  · intro cur
    rw [invLookup_compute_residual]
    ring

/-- Witness for C6 at the concrete input of
`TestBalance.test_compute_residual`. -/
theorem compute_residual_conservation_witness :
    sumBalances [simplePosting "Assets:Bank:Checking" 105.50 "USD",
        simplePosting "Assets:Bank:Checking" (-194.50) "USD"] "USD" -
      invLookup (compute_residual
        [simplePosting "Assets:Bank:Checking" 105.50 "USD",
         simplePosting "Assets:Bank:Checking" (-194.50) "USD"]) "USD" = 0 :=
  (compute_residual_conservation _ (by decide)).2 "USD"

/-- C7: for every explicit posting that carries a cost, `get_balance_amount`
returns `quantity * cost.number` denominated in `cost.currency`, and the
result does not depend on the posting's price field. -/
theorem get_balance_amount_cost_dominates (p : Posting) (q : ℚ) (c : Cost)
    (hn : p.number = some q) (hcur : p.currency.isSome = true)
    (hc : p.cost = some c) :
    get_balance_amount p = some ⟨q * c.number, c.currency⟩ ∧
    ∀ pr : Option Amount,
      get_balance_amount { p with price := pr } = get_balance_amount p := by
  obtain ⟨cur, hcur2⟩ := Option.isSome_iff_exists.mp hcur
  refine ⟨?_, ?_⟩
  · simp [get_balance_amount, hn, hcur2, hc]
  · intro pr
    simp [get_balance_amount, hn, hcur2, hc]

/-- Witness for C7 at the concrete input of
`TestBalance.test_get_balance_amount` (cost `0.80 EUR`, a price of `2.00 CAD`
present and ignored). -/
theorem get_balance_amount_cost_dominates_witness :
    get_balance_amount
        ⟨"Assets:Bank:Checking", some 105.50, some "USD",
          some ⟨0.80, "EUR"⟩, some ⟨2, "CAD"⟩⟩ =
      some ⟨(105.50 : ℚ) * 0.80, "EUR"⟩ ∧
    get_balance_amount
        { (⟨"Assets:Bank:Checking", some 105.50, some "USD",
            some ⟨0.80, "EUR"⟩, some ⟨2, "CAD"⟩⟩ : Posting) with price := none } =
      get_balance_amount
        ⟨"Assets:Bank:Checking", some 105.50, some "USD",
          some ⟨0.80, "EUR"⟩, some ⟨2, "CAD"⟩⟩ :=
  ⟨(get_balance_amount_cost_dominates
      ⟨"Assets:Bank:Checking", some 105.50, some "USD",
        some ⟨0.80, "EUR"⟩, some ⟨2, "CAD"⟩⟩ 105.50 ⟨0.80, "EUR"⟩ rfl rfl rfl).1,
   (get_balance_amount_cost_dominates
      ⟨"Assets:Bank:Checking", some 105.50, some "USD",
        some ⟨0.80, "EUR"⟩, some ⟨2, "CAD"⟩⟩ 105.50 ⟨0.80, "EUR"⟩ rfl rfl rfl).2 none⟩

/-- C8: `has_nontrivial_balance` is true exactly when the posting carries a
cost or a price; it is a pure function of the posting. -/
theorem has_nontrivial_balance_iff (p : Posting) :
    has_nontrivial_balance p = true ↔ (p.cost ≠ none ∨ p.price ≠ none) := by
  simp [has_nontrivial_balance, Option.isSome_iff_ne_none]

/-! ## Unfolding lemmas for the resolver -/

theorem get_balance_amount_fillPosting (p : Posting) (num : ℚ) (cur : String) :
    get_balance_amount (fillPosting p num cur) = some ⟨num, cur⟩ := rfl

theorem get_incomplete_postings_of_nil (txn : Transaction)
    (h : incompleteOf txn.postings = []) :
    get_incomplete_postings txn =
      (explicitOf txn.postings, false,
        if compute_residual (explicitOf txn.postings) = [] then []
        else [⟨txn.fileloc,
          ErrorKind.Imbalance (compute_residual (explicitOf txn.postings))⟩]) := by
  unfold get_incomplete_postings
  rw [h]

theorem get_incomplete_postings_of_cons (txn : Transaction) (cand : Posting)
    (rest : List Posting) (h : incompleteOf txn.postings = cand :: rest) :
    get_incomplete_postings txn =
      resolveFirst txn.fileloc (explicitOf txn.postings) cand
        (compute_residual (explicitOf txn.postings))
        (if rest = [] then []
         else [⟨txn.fileloc, ErrorKind.TooManyIncomplete⟩]) := by
  unfold get_incomplete_postings
  rw [h]

/-- C3: with no incomplete posting the posting list is returned unchanged and
`has_inserted` is false; a nonzero residual yields exactly one error, which
carries the whole residual (all nonzero currencies); an empty residual yields
no error. -/
theorem no_incomplete_unchanged (txn : Transaction)
    (h : incompleteOf txn.postings = []) :
    (get_incomplete_postings txn).1 = txn.postings ∧
    (get_incomplete_postings txn).2.1 = false ∧
    (compute_residual txn.postings ≠ [] →
      (get_incomplete_postings txn).2.2 =
        [⟨txn.fileloc, ErrorKind.Imbalance (compute_residual txn.postings)⟩]) ∧
    (compute_residual txn.postings = [] →
      (get_incomplete_postings txn).2.2 = []) := by
  have hex := explicitOf_eq_self_of_incomplete_nil txn.postings h
  rw [get_incomplete_postings_of_nil txn h, hex]
  refine ⟨rfl, rfl, ?_, ?_⟩
  · intro hne
    simp only [if_neg hne]
  · intro he
    simp only [if_pos he]

/-- Witness for C3 at the concrete inputs of
`TestBalance.test_get_incomplete_postings_pathological`: one unbalanced leg
(one error carrying the residual) and two balanced legs (no error). -/
theorem no_incomplete_unchanged_witness :
    (get_incomplete_postings
        (mkTxn [simplePosting "Assets:Bank:Checking" 105.50 "USD"])).2.2 =
      [⟨⟨"complete_test.py", 0⟩, ErrorKind.Imbalance [("USD", 105.50)]⟩] ∧
    (get_incomplete_postings
        (mkTxn [simplePosting "Assets:Bank:Checking" 105.50 "USD",
                simplePosting "Assets:Bank:Savings" (-105.50) "USD"])).2.2 = [] := by
  constructor
  · rw [(no_incomplete_unchanged
      (mkTxn [simplePosting "Assets:Bank:Checking" 105.50 "USD"])
      (by decide)).2.2.1 (by norm_num [compute_residual, explicitOf, incompleteOf, accumulateResidual, addPosting, addToInventory, get_balance_amount, isExplicit, mkTxn, simplePosting, autoPosting])]
    norm_num [compute_residual, explicitOf, accumulateResidual, addPosting,
      addToInventory, get_balance_amount, isExplicit, mkTxn, simplePosting]
  · exact (no_incomplete_unchanged
      (mkTxn [simplePosting "Assets:Bank:Checking" 105.50 "USD",
              simplePosting "Assets:Bank:Savings" (-105.50) "USD"])
      (by decide)).2.2.2 (by norm_num [compute_residual, explicitOf, incompleteOf, accumulateResidual, addPosting, addToInventory, get_balance_amount, isExplicit, mkTxn, simplePosting, autoPosting])

/-- C9: on a transaction all of whose postings are explicit and whose
residual is zero, the finalizer returns the transaction itself unmodified
with an empty error list, and a second application is the same no-op. -/
theorem balance_incomplete_postings_idempotent (txn : Transaction)
    (h1 : ∀ p ∈ txn.postings, isExplicit p = true)
    (h2 : compute_residual txn.postings = []) :
    balance_incomplete_postings txn = (txn, []) ∧
    balance_incomplete_postings (balance_incomplete_postings txn).1 =
      (txn, []) := by
  have hnil := incompleteOf_eq_nil_of_all txn.postings h1
  have hex := explicitOf_eq_self_of_incomplete_nil txn.postings hnil
  have hg : get_incomplete_postings txn = (txn.postings, false, []) := by
    rw [get_incomplete_postings_of_nil txn hnil, hex, if_pos h2]
  have hb : balance_incomplete_postings txn = (txn, []) := by
    unfold balance_incomplete_postings
    rw [hg]
    simp
  exact ⟨hb, by rw [hb]; exact hb⟩

/-- Witness for C9 at a fully explicit balanced transaction (the first case
of `TestBalance.balance_incomplete_postings`). -/
theorem balance_incomplete_postings_idempotent_witness :
    balance_incomplete_postings
        (mkTxn [simplePosting "Liabilities:CreditCard" (-50) "USD",
                simplePosting "Expenses:Restaurant" 50 "USD"]) =
      (mkTxn [simplePosting "Liabilities:CreditCard" (-50) "USD",
              simplePosting "Expenses:Restaurant" 50 "USD"], []) :=
  (balance_incomplete_postings_idempotent
    (mkTxn [simplePosting "Liabilities:CreditCard" (-50) "USD",
            simplePosting "Expenses:Restaurant" 50 "USD"])
    (by decide) (by norm_num [compute_residual, explicitOf, incompleteOf, accumulateResidual, addPosting, addToInventory, get_balance_amount, isExplicit, mkTxn, simplePosting, autoPosting])).1

/-- C2: with exactly one incomplete posting and a residual in exactly one
currency, the candidate is filled with the negated residual in that currency,
`has_inserted` is true, no error is raised, and the resulting posting list
sums to zero in every currency. -/
theorem fill_single_currency (txn : Transaction) (cand : Posting)
    (c0 : String) (n0 : ℚ)
    (h1 : incompleteOf txn.postings = [cand])
    (h2 : compute_residual (explicitOf txn.postings) = [(c0, n0)]) :
    get_incomplete_postings txn =
      (explicitOf txn.postings ++ [fillPosting cand (-n0) c0], true, []) ∧
    ∀ cur, sumBalances (explicitOf txn.postings ++ [fillPosting cand (-n0) c0])
      cur = 0 := by
  have hg : get_incomplete_postings txn =
      (explicitOf txn.postings ++ [fillPosting cand (-n0) c0], true, []) := by
    rw [get_incomplete_postings_of_cons txn cand [] h1, h2]
    rfl
  refine ⟨hg, ?_⟩
  intro cur
  rw [sumBalances_append]
  have hsum : sumBalances (explicitOf txn.postings) cur =
      invLookup (compute_residual (explicitOf txn.postings)) cur :=
    (invLookup_compute_residual _ cur).symm
  rw [h2] at hsum
  by_cases hc : c0 = cur
  · simp [hsum, invLookup, hc, sumBalances, get_balance_amount_fillPosting]
  · simp [hsum, invLookup, hc, sumBalances, get_balance_amount_fillPosting]

/-- Witness for C2 at the concrete input of
`TestBalance.test_get_incomplete_postings_normal` (scenario B): the
auto-posting is filled with `10.00 USD` and the transaction sums to zero. -/
theorem fill_single_currency_witness :
    get_incomplete_postings
        (mkTxn [simplePosting "Assets:Bank:Checking" 105.50 "USD",
                simplePosting "Assets:Bank:Savings" (-115.50) "USD",
                autoPosting "Assets:Bank:Balancing"]) =
      ([simplePosting "Assets:Bank:Checking" 105.50 "USD",
        simplePosting "Assets:Bank:Savings" (-115.50) "USD",
        fillPosting (autoPosting "Assets:Bank:Balancing") (-(-10)) "USD"],
        true, []) ∧
    sumBalances
      [simplePosting "Assets:Bank:Checking" 105.50 "USD",
       simplePosting "Assets:Bank:Savings" (-115.50) "USD",
       fillPosting (autoPosting "Assets:Bank:Balancing") (-(-10)) "USD"]
      "USD" = 0 := by
  have h := fill_single_currency
    (mkTxn [simplePosting "Assets:Bank:Checking" 105.50 "USD",
            simplePosting "Assets:Bank:Savings" (-115.50) "USD",
            autoPosting "Assets:Bank:Balancing"])
    (autoPosting "Assets:Bank:Balancing") "USD" (-10)
    (by decide) (by norm_num [compute_residual, explicitOf, incompleteOf, accumulateResidual, addPosting, addToInventory, get_balance_amount, isExplicit, mkTxn, simplePosting, autoPosting])
  exact ⟨h.1, h.2 "USD"⟩

/-- Counterexample for C1 as stated: a transaction with exactly one
auto-posting and no explicit postings satisfies the claim's hypotheses
(at least one incomplete posting, empty residual, fewer than two explicit
postings) and does drop the candidate with `has_inserted = false`, but the
error list has length one, not zero — `complete_test.py` lines 113–120
assert this single error. -/
theorem single_auto_posting_error_counterexample :
    incompleteOf (mkTxn [autoPosting "Assets:Bank:Checking"]).postings ≠ [] ∧
    compute_residual
      (explicitOf (mkTxn [autoPosting "Assets:Bank:Checking"]).postings) = [] ∧
    (explicitOf (mkTxn [autoPosting "Assets:Bank:Checking"]).postings).length
      < 2 ∧
    (get_incomplete_postings (mkTxn [autoPosting "Assets:Bank:Checking"])).1
      = [] ∧
    (get_incomplete_postings
      (mkTxn [autoPosting "Assets:Bank:Checking"])).2.1 = false ∧
    (get_incomplete_postings
      (mkTxn [autoPosting "Assets:Bank:Checking"])).2.2.length = 1 := by
  decide

/-- C1 (amended): with at least one incomplete posting, an empty residual and
fewer than two explicit postings, the first incomplete candidate is dropped
(the output is exactly the explicit postings) and `has_inserted` is false;
no error arises from this sub-case when exactly one explicit posting is
present, while with no explicit posting at all exactly one error is raised,
and an additional too-many-incomplete error is raised when more than one
incomplete posting exists. -/
theorem drop_candidate_empty_residual (txn : Transaction) (cand : Posting)
    (rest : List Posting)
    (h1 : incompleteOf txn.postings = cand :: rest)
    (h2 : compute_residual (explicitOf txn.postings) = [])
    (h3 : (explicitOf txn.postings).length < 2) :
    (get_incomplete_postings txn).1 = explicitOf txn.postings ∧
    (get_incomplete_postings txn).2.1 = false ∧
    (get_incomplete_postings txn).2.2.length =
      (if rest = [] then 0 else 1) +
        (if explicitOf txn.postings = [] then 1 else 0) := by
  have hg := get_incomplete_postings_of_cons txn cand rest h1
  rw [h2] at hg
  have hnot3 : ¬ (2 ≤ (explicitOf txn.postings).length) := by omega
  by_cases he : explicitOf txn.postings = []
  · have hg2 : get_incomplete_postings txn =
        (explicitOf txn.postings, false,
          (if rest = [] then []
           else [⟨txn.fileloc, ErrorKind.TooManyIncomplete⟩]) ++
            [⟨txn.fileloc, ErrorKind.SuperfluousIncomplete⟩]) := by
      rw [hg]
      simp only [resolveFirst]
      rw [if_neg hnot3, if_pos he]
    rw [hg2]
    refine ⟨rfl, rfl, ?_⟩
    by_cases hr : rest = [] <;> simp [hr, he]
  · have hg2 : get_incomplete_postings txn =
        (explicitOf txn.postings, false,
          if rest = [] then []
          else [⟨txn.fileloc, ErrorKind.TooManyIncomplete⟩]) := by
      rw [hg]
      simp only [resolveFirst]
      rw [if_neg hnot3, if_neg he]
    rw [hg2]
    refine ⟨rfl, rfl, ?_⟩
    by_cases hr : rest = [] <;> simp [hr, he]

/-- Witness for the amended C1 at the concrete input of
`TestBalance.test_balance_with_zero_posting`: one explicit `0 USD` posting
plus one auto-posting — the candidate is dropped, nothing is inserted and no
error is raised. -/
theorem drop_candidate_empty_residual_witness :
    (get_incomplete_postings
        (mkTxn [simplePosting "Income:US:Anthem:InsurancePayments" 0 "USD",
                autoPosting "Income:US:Anthem:InsurancePayments"])).1 =
      [simplePosting "Income:US:Anthem:InsurancePayments" 0 "USD"] ∧
    (get_incomplete_postings
        (mkTxn [simplePosting "Income:US:Anthem:InsurancePayments" 0 "USD",
                autoPosting "Income:US:Anthem:InsurancePayments"])).2.1 =
      false ∧
    (get_incomplete_postings
        (mkTxn [simplePosting "Income:US:Anthem:InsurancePayments" 0 "USD",
                autoPosting "Income:US:Anthem:InsurancePayments"])).2.2.length =
      0 := by
  have h := drop_candidate_empty_residual
    (mkTxn [simplePosting "Income:US:Anthem:InsurancePayments" 0 "USD",
            autoPosting "Income:US:Anthem:InsurancePayments"])
    (autoPosting "Income:US:Anthem:InsurancePayments") []
    (by decide)
    (by norm_num [compute_residual, explicitOf, incompleteOf,
      accumulateResidual, addPosting, addToInventory, get_balance_amount,
      isExplicit, mkTxn, simplePosting, autoPosting])
    (by decide)
  refine ⟨?_, h.2.1, ?_⟩
  · rw [h.1]
    decide
  · rw [h.2.2]
    decide

/-- C4: with at least one incomplete posting, an empty residual and at least
two explicit postings, the first candidate is zero-filled in a currency taken
from the explicit postings (the currency is definitely set), `has_inserted`
is true, and exactly one superfluous-incomplete error is reported. -/
theorem superfluous_zero_fill (txn : Transaction) (cand : Posting)
    (rest : List Posting)
    (h1 : incompleteOf txn.postings = cand :: rest)
    (h2 : compute_residual (explicitOf txn.postings) = [])
    (h3 : 2 ≤ (explicitOf txn.postings).length) :
    (get_incomplete_postings txn).1 =
      explicitOf txn.postings ++
        [fillPosting cand 0 (firstCurrency (explicitOf txn.postings))] ∧
    (∃ q ∈ explicitOf txn.postings,
      q.currency = some (firstCurrency (explicitOf txn.postings))) ∧
    (get_incomplete_postings txn).2.1 = true ∧
    (get_incomplete_postings txn).2.2.countP
      (fun e => decide (e.kind = ErrorKind.SuperfluousIncomplete)) = 1 := by
  have hg := get_incomplete_postings_of_cons txn cand rest h1
  rw [h2] at hg
  have hg2 : get_incomplete_postings txn =
      (explicitOf txn.postings ++
        [fillPosting cand 0 (firstCurrency (explicitOf txn.postings))], true,
        (if rest = [] then []
         else [⟨txn.fileloc, ErrorKind.TooManyIncomplete⟩]) ++
          [⟨txn.fileloc, ErrorKind.SuperfluousIncomplete⟩]) := by
    rw [hg]
    simp only [resolveFirst]
    rw [if_pos h3]
  refine ⟨by rw [hg2], ?_, by rw [hg2], ?_⟩
  · apply firstCurrency_mem
    · intro hnil
      rw [hnil] at h3
      simp at h3
    · intro p hp
      exact isExplicit_of_mem_explicitOf _ p hp
  · rw [hg2]
    rw [List.countP_append]
    by_cases hr : rest = [] <;>
      simp [hr, List.countP_cons, List.countP_nil]

/-- Witness for C4 at the concrete input of
`TestBalance.test_get_incomplete_postings_pathological` (scenario C):
`105.50 USD`, `-105.50 USD` and one auto-posting. -/
theorem superfluous_zero_fill_witness :
    (get_incomplete_postings
        (mkTxn [simplePosting "Assets:Bank:Checking" 105.50 "USD",
                simplePosting "Assets:Bank:Savings" (-105.50) "USD",
                autoPosting "Assets:Bank:Balancing"])).2.1 = true ∧
    (get_incomplete_postings
        (mkTxn [simplePosting "Assets:Bank:Checking" 105.50 "USD",
                simplePosting "Assets:Bank:Savings" (-105.50) "USD",
                autoPosting "Assets:Bank:Balancing"])).2.2.countP
      (fun e => decide (e.kind = ErrorKind.SuperfluousIncomplete)) = 1 := by
  have h := superfluous_zero_fill
    (mkTxn [simplePosting "Assets:Bank:Checking" 105.50 "USD",
            simplePosting "Assets:Bank:Savings" (-105.50) "USD",
            autoPosting "Assets:Bank:Balancing"])
    (autoPosting "Assets:Bank:Balancing") []
    (by decide)
    (by norm_num [compute_residual, explicitOf, incompleteOf,
      accumulateResidual, addPosting, addToInventory, get_balance_amount,
      isExplicit, mkTxn, simplePosting, autoPosting])
    (by decide)
  exact ⟨h.2.2.1, h.2.2.2⟩

/-- Shape of the resolver's output: the resulting posting list is the
explicit postings plus at most one fill of the candidate, and the errors are
the too-many errors followed by extra errors none of which is of the
too-many kind. -/
theorem resolveFirst_shape (fileloc : FileLocation) (explicit : List Posting)
    (cand : Posting) (residual : Inventory) (tooMany : List BalanceError) :
    ((resolveFirst fileloc explicit cand residual tooMany).1 = explicit ∨
      ∃ q c, (resolveFirst fileloc explicit cand residual tooMany).1 =
        explicit ++ [fillPosting cand q c]) ∧
    ∃ extra, (resolveFirst fileloc explicit cand residual tooMany).2.2 =
        tooMany ++ extra ∧
      ∀ e ∈ extra, e.kind ≠ ErrorKind.TooManyIncomplete := by
  rcases residual with _ | ⟨⟨cur, num⟩, _ | ⟨e2, rs⟩⟩
  · simp only [resolveFirst]
    by_cases h3 : 2 ≤ explicit.length
    · rw [if_pos h3]
      refine ⟨Or.inr ⟨0, firstCurrency explicit, rfl⟩,
        [⟨fileloc, ErrorKind.SuperfluousIncomplete⟩], rfl, ?_⟩
      intro e he
      rw [List.mem_singleton] at he
      subst he
      exact fun hcon => ErrorKind.noConfusion hcon
    · rw [if_neg h3]
      by_cases he : explicit = []
      · rw [if_pos he]
        refine ⟨Or.inl rfl,
          [⟨fileloc, ErrorKind.SuperfluousIncomplete⟩], rfl, ?_⟩
        intro e hee
        rw [List.mem_singleton] at hee
        subst hee
        exact fun hcon => ErrorKind.noConfusion hcon
      · rw [if_neg he]
        exact ⟨Or.inl rfl, [], by simp, by simp⟩
  · exact ⟨Or.inr ⟨-num, cur, rfl⟩, [], by simp [resolveFirst], by simp⟩
  · refine ⟨Or.inl rfl, [⟨fileloc, ErrorKind.AmbiguousCurrency⟩], rfl, ?_⟩
    intro e he
    rw [List.mem_singleton] at he
    subst he
    exact fun hcon => ErrorKind.noConfusion hcon

/-- C5: with more than one incomplete posting, exactly one too-many
error is reported, only the first candidate is filled (or dropped) while all
later incomplete postings are dropped, and on scenario E (`105.50 USD`,
`-106.50 USD`, two auto-postings) the first auto-posting is filled with
`1.00 USD`, giving three postings, one error and `has_inserted = true`. -/
theorem too_many_incomplete (txn : Transaction) (cand c2 : Posting)
    (rest : List Posting)
    (h1 : incompleteOf txn.postings = cand :: c2 :: rest) :
    (get_incomplete_postings txn).2.2.countP
        (fun e => decide (e.kind = ErrorKind.TooManyIncomplete)) = 1 ∧
    ((get_incomplete_postings txn).1 = explicitOf txn.postings ∨
      ∃ q c, (get_incomplete_postings txn).1 =
        explicitOf txn.postings ++ [fillPosting cand q c]) ∧
    get_incomplete_postings
        (mkTxn [simplePosting "Assets:Bank:Checking" 105.50 "USD",
                simplePosting "Assets:Bank:Savings" (-106.50) "USD",
                autoPosting "Assets:Bank:BalancingA",
                autoPosting "Assets:Bank:BalancingB"]) =
      ([simplePosting "Assets:Bank:Checking" 105.50 "USD",
        simplePosting "Assets:Bank:Savings" (-106.50) "USD",
        fillPosting (autoPosting "Assets:Bank:BalancingA") 1 "USD"], true,
        [⟨⟨"complete_test.py", 0⟩, ErrorKind.TooManyIncomplete⟩]) := by
  have hg := get_incomplete_postings_of_cons txn cand (c2 :: rest) h1
  rw [if_neg (by simp : ¬(c2 :: rest = ([] : List Posting)))] at hg
  obtain ⟨hshape1, extra, hex, hkind⟩ :=
    resolveFirst_shape txn.fileloc (explicitOf txn.postings) cand
      (compute_residual (explicitOf txn.postings))
      [⟨txn.fileloc, ErrorKind.TooManyIncomplete⟩]
  refine ⟨?_, ?_, ?_⟩
  · rw [hg, hex, List.countP_append]
    have hz : extra.countP
        (fun e => decide (e.kind = ErrorKind.TooManyIncomplete)) = 0 := by
      rw [List.countP_eq_zero]
      intro e he
      simp [hkind e he]
    rw [hz]
    simp [List.countP_cons]
  · rw [hg]
    exact hshape1
  · norm_num [get_incomplete_postings, resolveFirst, incompleteOf, explicitOf,
      compute_residual, accumulateResidual, addPosting, addToInventory,
      get_balance_amount, isExplicit, fillPosting, mkTxn, simplePosting,
      autoPosting]

/-- Witness for C5 at the concrete input of
`TestBalance.test_get_incomplete_postings_pathological` (scenario E). -/
theorem too_many_incomplete_witness :
    (get_incomplete_postings
        (mkTxn [simplePosting "Assets:Bank:Checking" 105.50 "USD",
                simplePosting "Assets:Bank:Savings" (-106.50) "USD",
                autoPosting "Assets:Bank:BalancingA",
                autoPosting "Assets:Bank:BalancingB"])).2.2.countP
      (fun e => decide (e.kind = ErrorKind.TooManyIncomplete)) = 1 :=
  (too_many_incomplete
    (mkTxn [simplePosting "Assets:Bank:Checking" 105.50 "USD",
            simplePosting "Assets:Bank:Savings" (-106.50) "USD",
            autoPosting "Assets:Bank:BalancingA",
            autoPosting "Assets:Bank:BalancingB"])
    (autoPosting "Assets:Bank:BalancingA")
    (autoPosting "Assets:Bank:BalancingB") [] (by decide)).1

/-! ## Display-context lemmas -/

theorem alookup_isSome_iff_mem {α : Type} (l : List (String × α)) (k : String) :
    (alookup l k).isSome = true ↔ k ∈ l.map Prod.fst := by
  induction l with
  | nil => simp [alookup]
  | cons e rest ih =>
    obtain ⟨c, v⟩ := e
    by_cases hc : c = k
    · subst hc
      simp [alookup]
    · have hck : ¬ (k = c) := fun h => hc h.symm
      simp [alookup, hc, hck, ih]

theorem default_key_updateAssoc (l : List (String × CurrencyContext))
    (cur : String) (n : DecimalTuple) (k : String)
    (h : (alookup l k).isSome = true) :
    (alookup (updateAssoc l cur n) k).isSome = true := by
  induction l with
  | nil => simp [alookup] at h
  | cons e rest ih =>
    obtain ⟨c, cc⟩ := e
    by_cases hc : c = cur
    · subst hc
      by_cases hk : c = k
      · simp [updateAssoc, alookup, hk]
      · simp only [updateAssoc, if_pos rfl, alookup, if_neg hk] at h ⊢
        exact h
    · by_cases hk : c = k
      · subst hk
        simp [updateAssoc, alookup, hc]
      · simp only [updateAssoc, if_neg hc, alookup, if_neg hk] at h ⊢
        exact ih h

theorem default_key_applyUpdates (us : List (DecimalTuple × String)) :
    (alookup (DisplayContext.applyUpdates DisplayContext.init us).ccontexts
      "__default__").isSome = true := by
  suffices hgen : ∀ (vs : List (DecimalTuple × String)) (dc : DisplayContext),
      (alookup dc.ccontexts "__default__").isSome = true →
      (alookup (DisplayContext.applyUpdates dc vs).ccontexts
        "__default__").isSome = true by
    apply hgen
    simp [DisplayContext.init, alookup]
  intro vs
  induction vs with
  | nil =>
    intro dc h
    exact h
  | cons u rest ih =>
    intro dc h
    exact ih _ (default_key_updateAssoc dc.ccontexts u.2 u.1 "__default__" h)

theorem keys_build_natural (dc : DisplayContext) (precision : Precision)
    (commas : Bool) :
    (dc.build_natural precision commas).map Prod.fst =
      dc.ccontexts.map Prod.fst := by
  simp [DisplayContext.build_natural, List.map_map, Function.comp]

theorem keys_build_right (dc : DisplayContext) (precision : Precision)
    (commas : Bool) :
    (dc.build_right precision commas).map Prod.fst =
      dc.ccontexts.map Prod.fst := by
  simp [DisplayContext.build_right, List.map_map, Function.comp]

theorem keys_build_dot (dc : DisplayContext) (precision : Precision)
    (commas : Bool) :
    (dc.build_dot precision commas).map Prod.fst =
      dc.ccontexts.map Prod.fst := by
  simp [DisplayContext.build_dot, List.map_map, Function.comp]

/-- C10: a formatter produced by `DisplayContext.build` from a context built
by `__init__` and any sequence of `update` calls renders any number in any
currency, including a currency never passed to `update`, without raising: the
lookup falls back to the `__default__` entry, which always exists because
`__init__` pre-creates it. -/
theorem display_formatter_format_total (us : List (DecimalTuple × String))
    (alignment : Align) (precision : Precision) (commas : Bool)
    (fmt : DisplayFormatter)
    (h : (DisplayContext.applyUpdates DisplayContext.init us).build
      alignment precision commas 0 = some fmt)
    (number : ℚ) (currency : String) :
    (fmt.format number currency).isSome = true := by
  have hdef := default_key_applyUpdates us
  have hkeys : (alookup fmt.fmtstrings "__default__").isSome = true := by
    unfold DisplayContext.build at h
    rw [if_neg (by simp)] at h
    injection h with h2
    rw [← h2]
    cases alignment
    · rw [alookup_isSome_iff_mem]
      show "__default__" ∈ (DisplayContext.build_natural _ precision commas).map Prod.fst
      rw [keys_build_natural]
      exact (alookup_isSome_iff_mem _ _).mp hdef
    · rw [alookup_isSome_iff_mem]
      show "__default__" ∈ (DisplayContext.build_dot _ precision commas).map Prod.fst
      rw [keys_build_dot]
      exact (alookup_isSome_iff_mem _ _).mp hdef
    · rw [alookup_isSome_iff_mem]
      show "__default__" ∈ (DisplayContext.build_right _ precision commas).map Prod.fst
      rw [keys_build_right]
      exact (alookup_isSome_iff_mem _ _).mp hdef
  unfold DisplayFormatter.format
  cases hcur : alookup fmt.fmtstrings currency with
  | some fs => simp
  | none =>
    cases hd : alookup fmt.fmtstrings "__default__" with
    | some fs => simp
    | none =>
      rw [hd] at hkeys
      simp at hkeys

/-- Witness for C10: the formatter built from a fresh context formats a
number in a currency that was never updated. -/
theorem display_formatter_format_total_witness :
    ((⟨DisplayContext.init, [("__default__", "\x7b:\x7d")]⟩ :
        DisplayFormatter).format 0 "JPY").isSome = true :=
  display_formatter_format_total [] Align.NATURAL Precision.MOST_COMMON
    false ⟨DisplayContext.init, [("__default__", "\x7b:\x7d")]⟩ rfl 0 "JPY"
